import Mathlib

set_option linter.unusedVariables false

namespace BertConceptEmbeddings

/-! Shallow embedding of bert_concept_embeddings/bert_data_generator.py and
bert_concept_embeddings/custom_layers.py.  Mutable numpy rows are modeled as
lists updated with List.set; the process-wide random source is modeled as
explicit streams of draw results, threaded through the computation with
counters, so that quantifying over the stream quantifies over all possible
random draws. -/

/-- Streams of results of the process-wide random source.  floats n is the
result of the (n+1)-th call to random.random(); ints n a b is the result of
the (n+1)-th call to random.randint(a, b).  The values are left
unconstrained, so a theorem quantified over an Rng holds for every possible
sequence of draws. -/
structure Rng where
  floats : ℕ → ℚ
  ints : ℕ → ℤ → ℤ → ℤ

/-- State of BatchGeneratorVisitBased (bert_data_generator.py, lines 44-71).
The constructor stores the corpus, the special token ids, the vocabulary
range used for random substitution, and initializes the cursor index to 0. -/
structure BatchGeneratorVisitBased where
  concept_sequences : List (List ℤ)
  mask_token_id : ℤ
  unused_token_id : ℤ
  max_sequence_length : ℕ
  batch_size : ℕ
  first_token_id : ℤ
  last_token_id : ℤ
  index : ℕ

namespace BatchGeneratorVisitBased

/-- self.data_size = len(concept_sequences) (line 60); the corpus list is
never reassigned, so the stored value always equals the current length. -/
def data_size (g : BatchGeneratorVisitBased) : ℕ :=
  g.concept_sequences.length

/-- self.steps_per_epoch = data_size // batch_size (lines 61-64). -/
def steps_per_epoch (g : BatchGeneratorVisitBased) : ℕ :=
  g.data_size / g.batch_size

/-- Inner loop of generate_samples (lines 131-143): for word_pos in
range(0, len(sequence)) with an early break at the first unused token.
fuel is the number of loop iterations still to run (len(sequence) -
word_pos at every call reached from the top-level entry), fc and ic count
the random.random() and random.randint() calls consumed so far, and
output_mask / masked_sequence are the two arrays being written.  Returns
the final arrays together with the updated draw counters. -/
def maskLoop (g : BatchGeneratorVisitBased) (rng : Rng) (sequence : List ℤ) :
    ℕ → ℕ → ℕ → ℕ → List ℤ → List ℤ → List ℤ × List ℤ × ℕ × ℕ
  | 0, _, fc, ic, output_mask, masked_sequence =>
      (output_mask, masked_sequence, fc, ic)
  | fuel + 1, word_pos, fc, ic, output_mask, masked_sequence =>
      if sequence.getD word_pos 0 = g.unused_token_id then
        -- line 133-134: break at the first unused token
        (output_mask, masked_sequence, fc, ic)
      else if rng.floats fc < mkRat 15 100 then
        -- line 135: selected with probability 0.15; lines 136-137: the
        -- dice draw is rng.floats (fc + 1)
        if rng.floats (fc + 1) < mkRat 8 10 then
          -- lines 137-138: replace with the mask token
          maskLoop g rng sequence fuel (word_pos + 1) (fc + 2) ic
            (output_mask.set word_pos 1)
            (masked_sequence.set word_pos g.mask_token_id)
        else if rng.floats (fc + 1) < mkRat 9 10 then
          -- lines 139-141: replace with a random token from the vocab range
          maskLoop g rng sequence fuel (word_pos + 1) (fc + 2) (ic + 1)
            (output_mask.set word_pos 1)
            (masked_sequence.set word_pos
              (rng.ints ic g.first_token_id g.last_token_id))
        else
          -- line 142: 10 percent of the time the word is left as is,
          -- line 143: but output_mask is still set to 1
          maskLoop g rng sequence fuel (word_pos + 1) (fc + 2) ic
            (output_mask.set word_pos 1) masked_sequence
      else
        maskLoop g rng sequence fuel (word_pos + 1) (fc + 1) ic
          output_mask masked_sequence

/-- One iteration of the for-loop body of generate_samples (lines 127-144):
masked_sequence starts as a copy of the sequence, output_mask as a zero
array of the same length, then the scanning loop runs.  Returns the
(output_mask, sequence, masked_sequence) triple appended to results,
together with the updated draw counters. -/
def generate_sample (g : BatchGeneratorVisitBased) (rng : Rng) (fc ic : ℕ)
    (sequence : List ℤ) : (List ℤ × List ℤ × List ℤ) × ℕ × ℕ :=
  let init_mask : List ℤ := List.replicate sequence.length 0
  let r := maskLoop g rng sequence sequence.length 0 fc ic init_mask sequence
  ((r.1, sequence, r.2.1), r.2.2.1, r.2.2.2)

/-- generate_samples (lines 120-146): runs the per-sequence sampling over
every sequence of the batch in order, threading the random draw counters. -/
def generate_samples (g : BatchGeneratorVisitBased) (rng : Rng) (fc ic : ℕ) :
    List (List ℤ) → List (List ℤ × List ℤ × List ℤ) × ℕ × ℕ
  | [] => ([], fc, ic)
  | sequence :: rest =>
      let r := generate_sample g rng fc ic sequence
      let rs := generate_samples g rng r.2.1 r.2.2 rest
      (r.1 :: rs.1, rs.2)

/-- One yielded value of generate_batches: inputs is a list of rank-2
integer tensors, targets a list of rank-3 integer tensors (line 113 stacks
the original sequence and the output mask along a trailing axis of size 2,
so each innermost list has two entries). -/
structure BatchYield where
  inputs : List (List (List ℤ))
  targets : List (List (List (List ℤ)))

/-- np.stack([sequence, mask], axis=-1) restricted to one row (line 113):
combined[i] = [sequence[i], mask[i]]. -/
def combineRow (sequence mask : List ℤ) : List (List ℤ) :=
  (sequence.zip mask).map (fun p => [p.1, p.2])

/-- One iteration of the while-True loop of generate_batches (lines
101-118): reset the cursor when it has passed the end (lines 103-104),
take the islice of the corpus from index to index + batch_size (line 106;
islice truncates at the end of the list and does not wrap), advance the
cursor (line 107), generate the samples, unzip them, stack the combined
label, and yield ([masked_sequence], [combined_label]).  Returns the
yielded value, the generator state after the iteration and the updated
draw counters. -/
def generate_batches_step (g : BatchGeneratorVisitBased) (rng : Rng)
    (fc ic : ℕ) : BatchYield × BatchGeneratorVisitBased × ℕ × ℕ :=
  let g0 := if g.data_size ≤ g.index then { g with index := 0 } else g
  let concept_sequence_batch :=
    (g0.concept_sequences.drop g0.index).take g0.batch_size
  let g1 := { g0 with index := g0.index + g0.batch_size }
  let r := generate_samples g0 rng fc ic concept_sequence_batch
  let next_bunch_of_samples := r.1
  let mask := next_bunch_of_samples.map (fun t => t.1)
  let sequence := next_bunch_of_samples.map (fun t => t.2.1)
  let masked_sequence := next_bunch_of_samples.map (fun t => t.2.2)
  let combined_label := (sequence.zip mask).map (fun p => combineRow p.1 p.2)
  (⟨[masked_sequence], [combined_label]⟩, g1, r.2)

/-- Generator state together with the random draw counters, for iterating
generate_batches_step. -/
structure GenState where
  gen : BatchGeneratorVisitBased
  fc : ℕ
  ic : ℕ

/-- The state after one yield of generate_batches. -/
def stepState (rng : Rng) (s : GenState) : GenState :=
  let r := generate_batches_step s.gen rng s.fc s.ic
  ⟨r.2.1, r.2.2.1, r.2.2.2⟩

/-- The state after n yields of generate_batches. -/
def iterState (rng : Rng) : ℕ → GenState → GenState
  | 0, s => s
  | n + 1, s => iterState rng n (stepState rng s)

/-- The value of the (n+1)-th yield of generate_batches, starting from
state s. -/
def nthYield (rng : Rng) (s : GenState) (n : ℕ) : BatchYield :=
  let s' := iterState rng n s
  (generate_batches_step s'.gen rng s'.fc s'.ic).1

end BatchGeneratorVisitBased

/-- Index of the first occurrence of the unused token u in a sequence;
equals the length of the sequence when u does not occur. -/
def firstUnused (u : ℤ) : List ℤ → ℕ
  | [] => 0
  | x :: xs => if x = u then 0 else firstUnused u xs + 1

theorem firstUnused_le_length (u : ℤ) (l : List ℤ) :
    firstUnused u l ≤ l.length := by
  induction l with
  | nil => simp [firstUnused]
  | cons x xs ih =>
      by_cases h : x = u
      · simp [firstUnused, h]
      · simp only [firstUnused, h, if_false, List.length_cons]
        omega

theorem getD_lt_firstUnused (u : ℤ) (l : List ℤ) (i : ℕ)
    (h : i < firstUnused u l) : l.getD i 0 ≠ u := by
  induction l generalizing i with
  | nil => simp [firstUnused] at h
  | cons x xs ih =>
      by_cases hx : x = u
      · simp [firstUnused, hx] at h
      · cases i with
        | zero => simpa using hx
        | succ j =>
            simp only [firstUnused, hx, if_false] at h
            simpa using ih j (by omega)

theorem firstUnused_le_of_getD (u : ℤ) (l : List ℤ) (j : ℕ)
    (hj : j < l.length) (h : l.getD j 0 = u) : firstUnused u l ≤ j := by
  by_contra hc
  exact getD_lt_firstUnused u l j (by omega) h

theorem getD_firstUnused_self (u : ℤ) (l : List ℤ)
    (h : firstUnused u l < l.length) : l.getD (firstUnused u l) 0 = u := by
  induction l with
  | nil => simp at h
  | cons x xs ih =>
      by_cases hx : x = u
      · simp [firstUnused, hx]
      · simp only [firstUnused, hx, if_false, List.length_cons] at h ⊢
        simpa using ih (by omega)

theorem getD_set_ne (l : List ℤ) (m i : ℕ) (a d : ℤ) (h : m ≠ i) :
    (l.set m a).getD i d = l.getD i d := by
  simp [List.getD_eq_getD_get?, List.get?_eq_getElem?, List.getElem?_set_ne h]

theorem getD_set_self (l : List ℤ) (m : ℕ) (a d : ℤ) (h : m < l.length) :
    (l.set m a).getD m d = a := by
  simp [List.getD_eq_getD_get?, List.get?_eq_getElem?, List.getElem?_set_self h]

theorem getD_set_cases (l : List ℤ) (m i : ℕ) (a d : ℤ) :
    (l.set m a).getD i d = l.getD i d ∨
      (i = m ∧ (l.set m a).getD i d = a) := by
  by_cases hmi : m = i
  · subst hmi
    by_cases hm : m < l.length
    · exact Or.inr ⟨rfl, getD_set_self l m a d hm⟩
    · left
      rw [List.set_eq_of_length_le (by omega)]
  · exact Or.inl (getD_set_ne l m i a d hmi)

namespace BatchGeneratorVisitBased

/-- The scanning loop preserves the lengths of the two arrays it writes. -/
theorem maskLoop_length (g : BatchGeneratorVisitBased) (rng : Rng)
    (sequence : List ℤ) (fuel : ℕ) :
    ∀ word_pos fc ic output_mask masked_sequence,
      (maskLoop g rng sequence fuel word_pos fc ic output_mask
        masked_sequence).1.length = output_mask.length ∧
      (maskLoop g rng sequence fuel word_pos fc ic output_mask
        masked_sequence).2.1.length = masked_sequence.length := by
  induction fuel with
  | zero => intro word_pos fc ic output_mask masked_sequence; simp [maskLoop]
  | succ fuel ih =>
      intro word_pos fc ic output_mask masked_sequence
      simp only [maskLoop]
      by_cases hu : sequence.getD word_pos 0 = g.unused_token_id
      · rw [if_pos hu]
        exact ⟨rfl, rfl⟩
      · rw [if_neg hu]
        by_cases hsel : rng.floats fc < mkRat 15 100
        · rw [if_pos hsel]
          by_cases h8 : rng.floats (fc + 1) < mkRat 8 10
          · rw [if_pos h8]
            have h := ih (word_pos + 1) (fc + 2) ic (output_mask.set word_pos 1)
              (masked_sequence.set word_pos g.mask_token_id)
            simpa using h
          · rw [if_neg h8]
            by_cases h9 : rng.floats (fc + 1) < mkRat 9 10
            · rw [if_pos h9]
              have h := ih (word_pos + 1) (fc + 2) (ic + 1)
                (output_mask.set word_pos 1)
                (masked_sequence.set word_pos
                  (rng.ints ic g.first_token_id g.last_token_id))
              simpa using h
            · rw [if_neg h9]
              have h := ih (word_pos + 1) (fc + 2) ic
                (output_mask.set word_pos 1) masked_sequence
              simpa using h
        · rw [if_neg hsel]
          exact ih (word_pos + 1) (fc + 1) ic output_mask masked_sequence

/-- Positions strictly before the current scanning position are never
written by the rest of the loop. -/
theorem maskLoop_untouched_lt (g : BatchGeneratorVisitBased) (rng : Rng)
    (sequence : List ℤ) (fuel : ℕ) :
    ∀ word_pos fc ic output_mask masked_sequence i, i < word_pos →
      (maskLoop g rng sequence fuel word_pos fc ic output_mask
        masked_sequence).1.getD i 0 = output_mask.getD i 0 ∧
      (maskLoop g rng sequence fuel word_pos fc ic output_mask
        masked_sequence).2.1.getD i 0 = masked_sequence.getD i 0 := by
  induction fuel with
  | zero =>
      intro word_pos fc ic output_mask masked_sequence i hi
      simp [maskLoop]
  | succ fuel ih =>
      intro word_pos fc ic output_mask masked_sequence i hi
      have hne : word_pos ≠ i := by omega
      simp only [maskLoop]
      by_cases hu : sequence.getD word_pos 0 = g.unused_token_id
      · rw [if_pos hu]
        exact ⟨rfl, rfl⟩
      · rw [if_neg hu]
        by_cases hsel : rng.floats fc < mkRat 15 100
        · rw [if_pos hsel]
          by_cases h8 : rng.floats (fc + 1) < mkRat 8 10
          · rw [if_pos h8]
            have h := ih (word_pos + 1) (fc + 2) ic
              (output_mask.set word_pos 1)
              (masked_sequence.set word_pos g.mask_token_id) i (by omega)
            exact ⟨h.1.trans (getD_set_ne _ _ _ _ _ hne),
              h.2.trans (getD_set_ne _ _ _ _ _ hne)⟩
          · rw [if_neg h8]
            by_cases h9 : rng.floats (fc + 1) < mkRat 9 10
            · rw [if_pos h9]
              have h := ih (word_pos + 1) (fc + 2) (ic + 1)
                (output_mask.set word_pos 1)
                (masked_sequence.set word_pos
                  (rng.ints ic g.first_token_id g.last_token_id)) i (by omega)
              exact ⟨h.1.trans (getD_set_ne _ _ _ _ _ hne),
                h.2.trans (getD_set_ne _ _ _ _ _ hne)⟩
            · rw [if_neg h9]
              have h := ih (word_pos + 1) (fc + 2) ic
                (output_mask.set word_pos 1) masked_sequence i (by omega)
              exact ⟨h.1.trans (getD_set_ne _ _ _ _ _ hne), h.2⟩
        · rw [if_neg hsel]
          exact ih (word_pos + 1) (fc + 1) ic output_mask masked_sequence
            i (by omega)

/-- If some position j between the current scanning position and i holds
the unused token, the loop never writes position i: the scan breaks at or
before j. -/
theorem maskLoop_untouched_ge_break (g : BatchGeneratorVisitBased)
    (rng : Rng) (sequence : List ℤ) (fuel : ℕ) :
    ∀ word_pos fc ic output_mask masked_sequence i,
      (∃ j, word_pos ≤ j ∧ j ≤ i ∧
        sequence.getD j 0 = g.unused_token_id) →
      (maskLoop g rng sequence fuel word_pos fc ic output_mask
        masked_sequence).1.getD i 0 = output_mask.getD i 0 ∧
      (maskLoop g rng sequence fuel word_pos fc ic output_mask
        masked_sequence).2.1.getD i 0 = masked_sequence.getD i 0 := by
  induction fuel with
  | zero =>
      intro word_pos fc ic output_mask masked_sequence i _
      simp [maskLoop]
  | succ fuel ih =>
      intro word_pos fc ic output_mask masked_sequence i hj
      obtain ⟨j, hwj, hji, hju⟩ := hj
      simp only [maskLoop]
      by_cases hu : sequence.getD word_pos 0 = g.unused_token_id
      · rw [if_pos hu]
        exact ⟨rfl, rfl⟩
      · rw [if_neg hu]
        have hjne : j ≠ word_pos := fun h => hu (h ▸ hju)
        have hine : word_pos ≠ i := by omega
        have hnext : ∃ j, word_pos + 1 ≤ j ∧ j ≤ i ∧
            sequence.getD j 0 = g.unused_token_id := ⟨j, by omega, hji, hju⟩
        by_cases hsel : rng.floats fc < mkRat 15 100
        · rw [if_pos hsel]
          by_cases h8 : rng.floats (fc + 1) < mkRat 8 10
          · rw [if_pos h8]
            have h := ih (word_pos + 1) (fc + 2) ic
              (output_mask.set word_pos 1)
              (masked_sequence.set word_pos g.mask_token_id) i hnext
            exact ⟨h.1.trans (getD_set_ne _ _ _ _ _ hine),
              h.2.trans (getD_set_ne _ _ _ _ _ hine)⟩
          · rw [if_neg h8]
            by_cases h9 : rng.floats (fc + 1) < mkRat 9 10
            · rw [if_pos h9]
              have h := ih (word_pos + 1) (fc + 2) (ic + 1)
                (output_mask.set word_pos 1)
                (masked_sequence.set word_pos
                  (rng.ints ic g.first_token_id g.last_token_id)) i hnext
              exact ⟨h.1.trans (getD_set_ne _ _ _ _ _ hine),
                h.2.trans (getD_set_ne _ _ _ _ _ hine)⟩
            · rw [if_neg h9]
              have h := ih (word_pos + 1) (fc + 2) ic
                (output_mask.set word_pos 1) masked_sequence i hnext
              exact ⟨h.1.trans (getD_set_ne _ _ _ _ _ hine), h.2⟩
        · rw [if_neg hsel]
          exact ih (word_pos + 1) (fc + 1) ic output_mask masked_sequence
            i hnext

/-- Loop invariant for the first half of the padding contract: if the scan
has not yet passed the first unused token and every position already marked
1 lies strictly before it, then the same holds for the final output mask.
The scan can only mark positions it visits before breaking, and it breaks
no later than the first unused token. -/
theorem maskLoop_mask_bound (g : BatchGeneratorVisitBased) (rng : Rng)
    (sequence : List ℤ) (fuel : ℕ) :
    ∀ word_pos fc ic output_mask masked_sequence,
      word_pos + fuel ≤ sequence.length →
      word_pos ≤ firstUnused g.unused_token_id sequence →
      (∀ i, output_mask.getD i 0 = 1 →
        i < firstUnused g.unused_token_id sequence) →
      ∀ i, (maskLoop g rng sequence fuel word_pos fc ic output_mask
        masked_sequence).1.getD i 0 = 1 →
        i < firstUnused g.unused_token_id sequence := by
  induction fuel with
  | zero =>
      intro word_pos fc ic output_mask masked_sequence _ _ hinv i
      simpa [maskLoop] using hinv i
  | succ fuel ih =>
      intro word_pos fc ic output_mask masked_sequence hlen hpos hinv i
      simp only [maskLoop]
      by_cases hu : sequence.getD word_pos 0 = g.unused_token_id
      · rw [if_pos hu]
        exact hinv i
      · rw [if_neg hu]
        have hwk : word_pos < firstUnused g.unused_token_id sequence := by
          rcases Nat.lt_or_ge word_pos
              (firstUnused g.unused_token_id sequence) with h | h
          · exact h
          · exfalso
            have heq : word_pos = firstUnused g.unused_token_id sequence := by
              have := firstUnused_le_of_getD g.unused_token_id sequence
              omega
            exact hu (heq ▸ getD_firstUnused_self g.unused_token_id sequence
              (heq ▸ (by omega)))
        have hinv1 : ∀ i, (output_mask.set word_pos 1).getD i 0 = 1 →
            i < firstUnused g.unused_token_id sequence := by
          intro i hi
          rcases getD_set_cases output_mask word_pos i 1 0 with h | h
          · exact hinv i (h ▸ hi)
          · omega
        by_cases hsel : rng.floats fc < mkRat 15 100
        · rw [if_pos hsel]
          by_cases h8 : rng.floats (fc + 1) < mkRat 8 10
          · rw [if_pos h8]
            exact ih (word_pos + 1) (fc + 2) ic _ _ (by omega) (by omega)
              hinv1 i
          · rw [if_neg h8]
            by_cases h9 : rng.floats (fc + 1) < mkRat 9 10
            · rw [if_pos h9]
              exact ih (word_pos + 1) (fc + 2) (ic + 1) _ _ (by omega)
                (by omega) hinv1 i
            · rw [if_neg h9]
              exact ih (word_pos + 1) (fc + 2) ic _ _ (by omega) (by omega)
                hinv1 i
        · rw [if_neg hsel]
          exact ih (word_pos + 1) (fc + 1) ic _ _ (by omega) (by omega) hinv i

/-- Loop invariant for the masking frame property: every position whose
output mask is 0 at the end still holds its original token, because the
loop writes masked_sequence only at positions where it also sets the mask
to 1. -/
theorem maskLoop_mask0_unchanged (g : BatchGeneratorVisitBased) (rng : Rng)
    (sequence : List ℤ) (fuel : ℕ) :
    ∀ word_pos fc ic output_mask masked_sequence,
      word_pos + fuel ≤ sequence.length →
      output_mask.length = sequence.length →
      (∀ i, output_mask.getD i 0 = 0 →
        masked_sequence.getD i 0 = sequence.getD i 0) →
      ∀ i, (maskLoop g rng sequence fuel word_pos fc ic output_mask
          masked_sequence).1.getD i 0 = 0 →
        (maskLoop g rng sequence fuel word_pos fc ic output_mask
          masked_sequence).2.1.getD i 0 = sequence.getD i 0 := by
  induction fuel with
  | zero =>
      intro word_pos fc ic output_mask masked_sequence _ _ hinv i
      simpa [maskLoop] using hinv i
  | succ fuel ih =>
      intro word_pos fc ic output_mask masked_sequence hlen hmlen hinv i
      have hposlen : word_pos < output_mask.length := by omega
      simp only [maskLoop]
      by_cases hu : sequence.getD word_pos 0 = g.unused_token_id
      · rw [if_pos hu]
        exact hinv i
      · rw [if_neg hu]
        have hset1 : ∀ i, (output_mask.set word_pos 1).getD i 0 = 0 →
            i ≠ word_pos := by
          intro i h0 hip
          rw [hip, getD_set_self output_mask word_pos 1 0 hposlen] at h0
          exact one_ne_zero h0
        by_cases hsel : rng.floats fc < mkRat 15 100
        · by_cases h8 : rng.floats (fc + 1) < mkRat 8 10
          · rw [if_pos hsel, if_pos h8]
            refine ih (word_pos + 1) (fc + 2) ic _ _ (by omega)
              (by simpa using hmlen) ?_ i
            intro i h0
            have hne := hset1 i h0
            rw [getD_set_ne output_mask word_pos i 1 0 (Ne.symm hne)] at h0
            rw [getD_set_ne masked_sequence word_pos i g.mask_token_id 0
              (Ne.symm hne)]
            exact hinv i h0
          · by_cases h9 : rng.floats (fc + 1) < mkRat 9 10
            · rw [if_pos hsel, if_neg h8, if_pos h9]
              refine ih (word_pos + 1) (fc + 2) (ic + 1) _ _ (by omega)
                (by simpa using hmlen) ?_ i
              intro i h0
              have hne := hset1 i h0
              rw [getD_set_ne output_mask word_pos i 1 0 (Ne.symm hne)] at h0
              rw [getD_set_ne masked_sequence word_pos i
                (rng.ints ic g.first_token_id g.last_token_id) 0
                (Ne.symm hne)]
              exact hinv i h0
            · rw [if_pos hsel, if_neg h8, if_neg h9]
              refine ih (word_pos + 1) (fc + 2) ic _ _ (by omega)
                (by simpa using hmlen) ?_ i
              intro i h0
              have hne := hset1 i h0
              rw [getD_set_ne output_mask word_pos i 1 0 (Ne.symm hne)] at h0
              exact hinv i h0
        · rw [if_neg hsel]
          exact ih (word_pos + 1) (fc + 1) ic _ _ (by omega) hmlen hinv i

/-- getD of a zero-filled replicate array is 0 at every index, in or out
of range. -/
theorem getD_replicate_zero (n i : ℕ) :
    (List.replicate n (0 : ℤ)).getD i 0 = 0 := by
  rcases Nat.lt_or_ge i n with h | h
  · rw [List.getD_eq_getElem _ _ (by simpa using h)]
    simp
  · exact List.getD_eq_default _ _ (by simpa using h)

/-- A concrete generator instance used to evaluate the theorems on the
spec scenario: corpus holding the single sequence [5, 6, 7, 99, 99], mask
token id 100, unused token id 99, vocabulary range 1..98, batch size 1. -/
def sampleGen : BatchGeneratorVisitBased :=
  ⟨[[5, 6, 7, 99, 99]], 100, 99, 5, 1, 1, 98, 0⟩

/-- A concrete random stream whose float draws are all 1/2 (so no position
is ever selected, since selection requires a draw below 0.15) and whose
randint draws are all 1. -/
def rngHalf : Rng := ⟨fun _ => mkRat 1 2, fun _ _ _ => 1⟩

/-- C3: for every generated sample and all random draws, output_mask[i] = 1
implies i lies strictly before the first occurrence of the unused token of
the sequence, and every position at or after the first unused token keeps
output_mask = 0 and a masked_sequence entry equal to the original. -/
theorem generate_sample_padding_contract
    (g : BatchGeneratorVisitBased) (rng : Rng) (fc ic : ℕ)
    (sequence : List ℤ) :
    (∀ i, (generate_sample g rng fc ic sequence).1.1.getD i 0 = 1 →
      i < firstUnused g.unused_token_id sequence) ∧
    (∀ i, firstUnused g.unused_token_id sequence ≤ i →
      (generate_sample g rng fc ic sequence).1.1.getD i 0 = 0 ∧
      (generate_sample g rng fc ic sequence).1.2.2.getD i 0 =
        sequence.getD i 0) := by
  constructor
  · intro i hi
    refine maskLoop_mask_bound g rng sequence sequence.length 0 fc ic
      (List.replicate sequence.length 0) sequence (by omega) (Nat.zero_le _)
      ?_ i hi
    intro j hj
    rw [getD_replicate_zero] at hj
    exact absurd hj (by norm_num)
  · intro i hk
    rcases Nat.lt_or_ge (firstUnused g.unused_token_id sequence)
        sequence.length with hlen | hlen
    · have hocc := getD_firstUnused_self g.unused_token_id sequence hlen
      have hub := maskLoop_untouched_ge_break g rng sequence sequence.length
        0 fc ic (List.replicate sequence.length 0) sequence i
        ⟨firstUnused g.unused_token_id sequence, Nat.zero_le _, hk, hocc⟩
      exact ⟨hub.1.trans (getD_replicate_zero _ _), hub.2⟩
    · have hil : sequence.length ≤ i := le_trans hlen hk
      have hlen2 := maskLoop_length g rng sequence sequence.length 0 fc ic
        (List.replicate sequence.length 0) sequence
      constructor
      · show (maskLoop g rng sequence sequence.length 0 fc ic
          (List.replicate sequence.length 0) sequence).1.getD i 0 = 0
        refine List.getD_eq_default _ _ ?_
        rw [hlen2.1, List.length_replicate]
        exact hil
      · show (maskLoop g rng sequence sequence.length 0 fc ic
          (List.replicate sequence.length 0) sequence).2.1.getD i 0 =
            sequence.getD i 0
        rw [List.getD_eq_default _ _ (by rw [hlen2.2]; exact hil),
          List.getD_eq_default _ _ hil]

/-- Closed instance of the padding contract on the spec scenario
[5, 6, 7, 99, 99] with unused token 99: position 3 (the first padding
position) ends with output_mask 0 and an unchanged masked entry. -/
theorem generate_sample_padding_contract_witness :
    (generate_sample sampleGen rngHalf 0 0 [5, 6, 7, 99, 99]).1.1.getD 3 0
        = 0 ∧
    (generate_sample sampleGen rngHalf 0 0 [5, 6, 7, 99, 99]).1.2.2.getD 3 0
        = 99 := by
  have h := (generate_sample_padding_contract sampleGen rngHalf 0 0
    [5, 6, 7, 99, 99]).2 3 (by decide)
  exact ⟨h.1, h.2.trans (by decide)⟩

/-- C4: for every generated sample, every random draw and every position i,
output_mask[i] = 0 implies the masked sequence still holds the original
token of the sequence at i; the masked sequence can differ from the
original only where output_mask is 1. -/
theorem generate_sample_mask0_frame
    (g : BatchGeneratorVisitBased) (rng : Rng) (fc ic : ℕ)
    (sequence : List ℤ) (i : ℕ)
    (h0 : (generate_sample g rng fc ic sequence).1.1.getD i 0 = 0) :
    (generate_sample g rng fc ic sequence).1.2.2.getD i 0 =
      sequence.getD i 0 := by
  refine maskLoop_mask0_unchanged g rng sequence sequence.length 0 fc ic
    (List.replicate sequence.length 0) sequence (by omega)
    (List.length_replicate _ _) (fun _ _ => rfl) i h0

/-- Closed instance of the masking frame property: on [5, 6, 7, 99, 99]
with draws that never select a position, position 1 has mask 0 and keeps
its original token 6. -/
theorem generate_sample_mask0_frame_witness :
    (generate_sample sampleGen rngHalf 0 0 [5, 6, 7, 99, 99]).1.2.2.getD 1 0
      = 6 := by
  have h := generate_sample_mask0_frame sampleGen rngHalf 0 0
    [5, 6, 7, 99, 99] 1 (by decide)
  exact h.trans (by decide)

/-- The cursor value actually used by an iteration of generate_batches,
after the start-of-iteration reset (lines 103-104): 0 when the stored
cursor has reached or passed the end of the corpus, the stored cursor
otherwise. -/
def reset_index (g : BatchGeneratorVisitBased) : ℕ :=
  if g.data_size ≤ g.index then 0 else g.index

/-- The slice of the corpus consumed by an iteration of generate_batches
(line 106): islice(concept_sequences, index, index + batch_size) truncates
at the end of the corpus and never wraps. -/
def current_batch (g : BatchGeneratorVisitBased) : List (List ℤ) :=
  (g.concept_sequences.drop (reset_index g)).take g.batch_size

/-- The sample list produced inside one iteration of generate_batches. -/
def step_samples (g : BatchGeneratorVisitBased) (rng : Rng) (fc ic : ℕ) :
    List (List ℤ × List ℤ × List ℤ) :=
  (generate_samples { g with index := reset_index g } rng fc ic
    (current_batch g)).1

/-- The yield of one iteration of generate_batches, rewritten through
reset_index / current_batch / step_samples. -/
theorem step_yield_eq (g : BatchGeneratorVisitBased) (rng : Rng)
    (fc ic : ℕ) :
    (generate_batches_step g rng fc ic).1 =
      ⟨[(step_samples g rng fc ic).map (fun t => t.2.2)],
        [(((step_samples g rng fc ic).map (fun t => t.2.1)).zip
            ((step_samples g rng fc ic).map (fun t => t.1))).map
          (fun p => combineRow p.1 p.2)]⟩ := by
  by_cases hix : g.data_size ≤ g.index
  · simp [generate_batches_step, step_samples, reset_index, current_batch,
      hix]
  · simp [generate_batches_step, step_samples, reset_index, current_batch,
      hix]

/-- The generator state after one iteration of generate_batches: the same
fields with the cursor advanced by batch_size from the reset cursor. -/
theorem step_state_eq (g : BatchGeneratorVisitBased) (rng : Rng)
    (fc ic : ℕ) :
    (generate_batches_step g rng fc ic).2.1 =
      { g with index := reset_index g + g.batch_size } := by
  by_cases hix : g.data_size ≤ g.index
  · simp [generate_batches_step, reset_index, hix]
  · simp [generate_batches_step, reset_index, hix]

/-- Length of the output mask of one sample: equal to the sequence
length. -/
theorem generate_sample_mask_length (g : BatchGeneratorVisitBased)
    (rng : Rng) (fc ic : ℕ) (sequence : List ℤ) :
    (generate_sample g rng fc ic sequence).1.1.length = sequence.length := by
  have h := maskLoop_length g rng sequence sequence.length 0 fc ic
    (List.replicate sequence.length 0) sequence
  show (maskLoop g rng sequence sequence.length 0 fc ic
    (List.replicate sequence.length 0) sequence).1.length = sequence.length
  rw [h.1, List.length_replicate]

/-- Length of the masked sequence of one sample: equal to the sequence
length. -/
theorem generate_sample_masked_length (g : BatchGeneratorVisitBased)
    (rng : Rng) (fc ic : ℕ) (sequence : List ℤ) :
    (generate_sample g rng fc ic sequence).1.2.2.length =
      sequence.length := by
  have h := maskLoop_length g rng sequence sequence.length 0 fc ic
    (List.replicate sequence.length 0) sequence
  show (maskLoop g rng sequence sequence.length 0 fc ic
    (List.replicate sequence.length 0) sequence).2.1.length = sequence.length
  exact h.2

/-- Master shape lemma for generate_samples: the sample list is aligned
one-to-one with the input batch, the original sequence of each triple is
the corresponding input sequence unchanged, and both arrays of each triple
have the length of that sequence. -/
theorem generate_samples_forall2 (g : BatchGeneratorVisitBased) (rng : Rng)
    (batch : List (List ℤ)) :
    ∀ fc ic,
      List.Forall₂ (fun t sequence => t.2.1 = sequence ∧
          t.1.length = sequence.length ∧ t.2.2.length = sequence.length)
        (generate_samples g rng fc ic batch).1 batch := by
  induction batch with
  | nil => intro fc ic; exact List.Forall₂.nil
  | cons s rest ih =>
      intro fc ic
      show List.Forall₂ _
        ((generate_sample g rng fc ic s).1 ::
          (generate_samples g rng (generate_sample g rng fc ic s).2.1
            (generate_sample g rng fc ic s).2.2 rest).1) (s :: rest)
      exact List.Forall₂.cons
        ⟨rfl, generate_sample_mask_length g rng fc ic s,
          generate_sample_masked_length g rng fc ic s⟩ (ih _ _)

/-- The original-sequence components of the generated samples are exactly
the input batch. -/
theorem generate_samples_originals (g : BatchGeneratorVisitBased)
    (rng : Rng) (batch : List (List ℤ)) (fc ic : ℕ) :
    ((generate_samples g rng fc ic batch).1).map (fun t => t.2.1) =
      batch := by
  induction batch generalizing fc ic with
  | nil => rfl
  | cons s rest ih =>
      show (generate_sample g rng fc ic s).1.2.1 ::
        ((generate_samples g rng _ _ rest).1).map (fun t => t.2.1) = s :: rest
      rw [ih]
      rfl

/-- Every row of the stacked combined label has entries of length 2: token
id in channel 0, mask flag in channel 1. -/
theorem combineRow_mem_length (sequence mask : List ℤ) :
    ∀ p ∈ combineRow sequence mask, p.length = 2 := by
  intro p hp
  simp only [combineRow, List.mem_map] at hp
  obtain ⟨q, _, hq⟩ := hp
  rw [← hq]
  rfl

/-- Length of a combined-label row: the sequence length, when the mask has
the same length. -/
theorem combineRow_length (sequence mask : List ℤ)
    (h : mask.length = sequence.length) :
    (combineRow sequence mask).length = sequence.length := by
  simp [combineRow, h]

/-- Channel 0 of a combined-label row recovers the original sequence. -/
theorem combineRow_channel0 (sequence : List ℤ) :
    ∀ mask : List ℤ, mask.length = sequence.length →
      (combineRow sequence mask).map (fun r => r.getD 0 0) = sequence := by
  induction sequence with
  | nil => intro mask h; simp [combineRow]
  | cons x xs ih =>
      intro mask h
      cases mask with
      | nil => simp at h
      | cons m ms =>
          simp only [combineRow, List.zip_cons_cons, List.map_cons,
            List.map_map] at *
          refine congrArg (List.cons x) ?_
          simpa [combineRow] using ih ms (by simpa using h)

/-- Per-member form of the shape facts for generated samples. -/
theorem generate_samples_mem_lengths (g : BatchGeneratorVisitBased)
    (rng : Rng) (batch : List (List ℤ)) :
    ∀ fc ic, ∀ t ∈ (generate_samples g rng fc ic batch).1,
      t.1.length = t.2.1.length ∧ t.2.2.length = t.2.1.length := by
  induction batch with
  | nil => intro fc ic t ht; simp [generate_samples] at ht
  | cons s rest ih =>
      intro fc ic t ht
      have ht2 : t = (generate_sample g rng fc ic s).1 ∨
          t ∈ (generate_samples g rng (generate_sample g rng fc ic s).2.1
            (generate_sample g rng fc ic s).2.2 rest).1 := by
        simpa using List.mem_cons.mp ht
      rcases ht2 with h | h
      · subst h
        exact ⟨generate_sample_mask_length g rng fc ic s,
          generate_sample_masked_length g rng fc ic s⟩
      · exact ih _ _ t h

/-- Channel 0 of the combined label of one yield: the original sequences,
which are exactly the corpus slice consumed by the iteration. -/
def yield_originals (y : BatchYield) : List (List ℤ) :=
  (y.targets.getD 0 []).map (fun row => row.map (fun p => p.getD 0 0))

/-- Channel 0 of the yielded combined label recovers the consumed corpus
slice unchanged. -/
theorem step_channel0 (g : BatchGeneratorVisitBased) (rng : Rng)
    (fc ic : ℕ) :
    yield_originals (generate_batches_step g rng fc ic).1 =
      current_batch g := by
  rw [yield_originals, step_yield_eq, List.getD_cons_zero, List.zip_map',
    List.map_map, List.map_map]
  have hmem := generate_samples_mem_lengths
    { g with index := reset_index g } rng (current_batch g) fc ic
  have hcongr : ∀ t ∈ step_samples g rng fc ic,
      (combineRow t.2.1 t.1).map (fun p => p.getD 0 0) = t.2.1 := by
    intro t ht
    exact combineRow_channel0 t.2.1 t.1 (hmem t ht).1
  exact (List.map_congr_left hcongr).trans
    (generate_samples_originals _ rng (current_batch g) fc ic)

/-- A concrete generator with a corpus of three sequences and batch size
two, exhibiting the truncated batch at the end of the corpus. -/
def gen3 : BatchGeneratorVisitBased :=
  ⟨[[1], [2], [3]], 100, 99, 1, 2, 1, 98, 0⟩

/-- C1 (amended): each call yields (inputs, targets) with inputs the
single-element list [masked_token_ids] (one row per consumed sequence, each
row as long as its sequence) and targets the single-element list
[combined_label] (one row per consumed sequence, each row as long as its
sequence, every entry of size 2) — no has_next tensor is yielded. -/
theorem generate_batches_step_yield_structure
    (g : BatchGeneratorVisitBased) (rng : Rng) (fc ic : ℕ)
    (hds : 0 < g.data_size) (hbs : 0 < g.batch_size) :
    (generate_batches_step g rng fc ic).1.inputs.length = 1 ∧
    (generate_batches_step g rng fc ic).1.targets.length = 1 ∧
    List.Forall₂ (fun row sequence => List.length row =
        List.length sequence)
      ((generate_batches_step g rng fc ic).1.inputs.getD 0 [])
      (current_batch g) ∧
    List.Forall₂ (fun row sequence => List.length row =
        List.length sequence ∧ ∀ p ∈ row, List.length p = 2)
      ((generate_batches_step g rng fc ic).1.targets.getD 0 [])
      (current_batch g) := by
  have h2 := generate_samples_forall2 { g with index := reset_index g } rng
    (current_batch g) fc ic
  rw [step_yield_eq g rng fc ic]
  refine ⟨rfl, rfl, ?_, ?_⟩
  · rw [List.getD_cons_zero]
    refine List.forall₂_map_left_iff.mpr (List.Forall₂.imp ?_ h2)
    intro t sequence r
    exact r.2.2
  · rw [List.getD_cons_zero, List.zip_map', List.map_map]
    refine List.forall₂_map_left_iff.mpr (List.Forall₂.imp ?_ h2)
    intro t sequence r
    obtain ⟨hmid, hmask, hmasked⟩ := r
    constructor
    · show (combineRow t.2.1 t.1).length = sequence.length
      rw [combineRow_length t.2.1 t.1 (by rw [hmask, hmid]), hmid]
    · show ∀ p ∈ combineRow t.2.1 t.1, p.length = 2
      exact combineRow_mem_length t.2.1 t.1

/-- Closed instance of the yield structure on a concrete generator. -/
theorem generate_batches_step_yield_structure_witness :
    (generate_batches_step sampleGen rngHalf 0 0).1.inputs.length = 1 ∧
    (generate_batches_step sampleGen rngHalf 0 0).1.targets.length = 1 := by
  have h := generate_batches_step_yield_structure sampleGen rngHalf 0 0
    (by decide) (by decide)
  exact ⟨h.1, h.2.1⟩

/-- C1 counterexample: at a concrete call that does yield a batch, the
targets list holds exactly one tensor (the combined label); there is no
second has_next tensor in it. -/
theorem generate_batches_step_targets_single :
    (generate_batches_step sampleGen rngHalf 0 0).1.targets.length = 1 := by
  decide

/-- C2 (amended): a yielded batch holds min(batch_size, data_size −
reset_index) consecutive samples — the islice truncates at the end of the
corpus instead of wrapping around — and the consumed sequences are exactly
the contiguous corpus slice starting at the reset cursor. -/
theorem generate_batches_step_batch_length
    (g : BatchGeneratorVisitBased) (rng : Rng) (fc ic : ℕ)
    (hds : 0 < g.data_size) (hbs : 0 < g.batch_size) :
    ((generate_batches_step g rng fc ic).1.inputs.getD 0 []).length =
      min g.batch_size (g.data_size - reset_index g) ∧
    yield_originals (generate_batches_step g rng fc ic).1 =
      (g.concept_sequences.drop (reset_index g)).take g.batch_size := by
  constructor
  · rw [step_yield_eq g rng fc ic, List.getD_cons_zero, List.length_map]
    have h2 := generate_samples_forall2 { g with index := reset_index g }
      rng (current_batch g) fc ic
    rw [show (step_samples g rng fc ic).length = (current_batch g).length
        from h2.length_eq]
    rw [current_batch, List.length_take, List.length_drop]
    rfl
  · exact step_channel0 g rng fc ic

/-- Closed instance of the batch length formula: the first batch of the
three-sequence corpus with batch size two holds two samples. -/
theorem generate_batches_step_batch_length_witness :
    ((generate_batches_step gen3 rngHalf 0 0).1.inputs.getD 0 []).length
      = 2 := by
  have h := generate_batches_step_batch_length gen3 rngHalf 0 0
    (by decide) (by decide)
  exact h.1.trans (by decide)

/-- C2 counterexample: with a corpus of three sequences and batch size
two, the second yielded batch holds a single sample, not batch_size
samples, because the slice truncates at the end of the corpus instead of
wrapping around. -/
theorem generate_batches_second_batch_short :
    ((nthYield rngHalf ⟨gen3, 0, 0⟩ 1).inputs.getD 0 []).length = 1 ∧
    gen3.batch_size = 2 := by
  constructor
  · decide
  · rfl

/-- Invariant: iterating generate_batches never changes the stored corpus
of the generator. -/
theorem iterState_corpus (rng : Rng) :
    ∀ (n : ℕ) (s : GenState),
      (iterState rng n s).gen.concept_sequences =
        s.gen.concept_sequences := by
  intro n
  induction n with
  | zero => intro s; rfl
  | succ n ih =>
      intro s
      show (iterState rng n (stepState rng s)).gen.concept_sequences = _
      rw [ih (stepState rng s)]
      show (generate_batches_step s.gen rng s.fc s.ic).2.1.concept_sequences
        = s.gen.concept_sequences
      rw [step_state_eq]

/-- C9: the generator never modifies the caller-supplied corpus — after
any number of generate_batches iterations the stored concept sequences are
unchanged — and the original sequence returned inside each sample triple
of generate_samples is the unmodified input sequence. -/
theorem generator_corpus_immutable (g : BatchGeneratorVisitBased)
    (rng : Rng) (fc ic : ℕ) :
    (∀ n : ℕ, (iterState rng n ⟨g, fc, ic⟩).gen.concept_sequences =
      g.concept_sequences) ∧
    (∀ (batch : List (List ℤ)) (fc2 ic2 : ℕ),
      ((generate_samples g rng fc2 ic2 batch).1).map (fun t => t.2.1) =
        batch) := by
  constructor
  · intro n
    exact iterState_corpus rng n ⟨g, fc, ic⟩
  · intro batch fc2 ic2
    exact generate_samples_originals g rng batch fc2 ic2

/-- C5: with a corpus of four sequences and batch size two, the yields
walk the corpus in order with a cursor that resets to 0 when exhausted: the
first call consumes sequences 0 and 1, the second call sequences 2 and 3,
and the third call wraps back to sequences 0 and 1, for every random
stream (no reshuffling). -/
theorem generate_batches_cursor_order (s0 s1 s2 s3 : List ℤ)
    (mt ut : ℤ) (msl : ℕ) (ft lt : ℤ) (rng : Rng) (fc ic : ℕ) :
    yield_originals
        (nthYield rng ⟨⟨[s0, s1, s2, s3], mt, ut, msl, 2, ft, lt, 0⟩,
          fc, ic⟩ 0) = [s0, s1] ∧
    yield_originals
        (nthYield rng ⟨⟨[s0, s1, s2, s3], mt, ut, msl, 2, ft, lt, 0⟩,
          fc, ic⟩ 1) = [s2, s3] ∧
    yield_originals
        (nthYield rng ⟨⟨[s0, s1, s2, s3], mt, ut, msl, 2, ft, lt, 0⟩,
          fc, ic⟩ 2) = [s0, s1] := by
  have hg1 : (stepState rng ⟨⟨[s0, s1, s2, s3], mt, ut, msl, 2, ft, lt, 0⟩,
      fc, ic⟩).gen = ⟨[s0, s1, s2, s3], mt, ut, msl, 2, ft, lt, 2⟩ := by
    show (generate_batches_step _ rng fc ic).2.1 = _
    rw [step_state_eq]
    simp [reset_index, data_size]
  have hg2 : (iterState rng 2 ⟨⟨[s0, s1, s2, s3], mt, ut, msl, 2, ft, lt,
      0⟩, fc, ic⟩).gen = ⟨[s0, s1, s2, s3], mt, ut, msl, 2, ft, lt, 4⟩ := by
    rw [show (iterState rng 2 ⟨⟨[s0, s1, s2, s3], mt, ut, msl, 2, ft, lt,
        0⟩, fc, ic⟩).gen = (generate_batches_step
        (stepState rng ⟨⟨[s0, s1, s2, s3], mt, ut, msl, 2, ft, lt, 0⟩,
          fc, ic⟩).gen rng
        (stepState rng ⟨⟨[s0, s1, s2, s3], mt, ut, msl, 2, ft, lt, 0⟩,
          fc, ic⟩).fc
        (stepState rng ⟨⟨[s0, s1, s2, s3], mt, ut, msl, 2, ft, lt, 0⟩,
          fc, ic⟩).ic).2.1 from rfl]
    rw [step_state_eq, hg1]
    simp [reset_index, data_size]
  refine ⟨?_, ?_, ?_⟩
  · rw [show (nthYield rng ⟨⟨[s0, s1, s2, s3], mt, ut, msl, 2, ft, lt, 0⟩,
        fc, ic⟩ 0) = (generate_batches_step
        ⟨[s0, s1, s2, s3], mt, ut, msl, 2, ft, lt, 0⟩ rng fc ic).1 from rfl]
    rw [step_channel0]
    simp [current_batch, reset_index, data_size]
  · rw [show (nthYield rng ⟨⟨[s0, s1, s2, s3], mt, ut, msl, 2, ft, lt, 0⟩,
        fc, ic⟩ 1) = (generate_batches_step
        (stepState rng ⟨⟨[s0, s1, s2, s3], mt, ut, msl, 2, ft, lt, 0⟩,
          fc, ic⟩).gen rng
        (stepState rng ⟨⟨[s0, s1, s2, s3], mt, ut, msl, 2, ft, lt, 0⟩,
          fc, ic⟩).fc
        (stepState rng ⟨⟨[s0, s1, s2, s3], mt, ut, msl, 2, ft, lt, 0⟩,
          fc, ic⟩).ic).1 from rfl]
    rw [step_channel0, hg1]
    simp [current_batch, reset_index, data_size]
  · rw [show (nthYield rng ⟨⟨[s0, s1, s2, s3], mt, ut, msl, 2, ft, lt, 0⟩,
        fc, ic⟩ 2) = (generate_batches_step
        (iterState rng 2 ⟨⟨[s0, s1, s2, s3], mt, ut, msl, 2, ft, lt, 0⟩,
          fc, ic⟩).gen rng
        (iterState rng 2 ⟨⟨[s0, s1, s2, s3], mt, ut, msl, 2, ft, lt, 0⟩,
          fc, ic⟩).fc
        (iterState rng 2 ⟨⟨[s0, s1, s2, s3], mt, ut, msl, 2, ft, lt, 0⟩,
          fc, ic⟩).ic).1 from rfl]
    rw [step_channel0, hg2]
    simp [current_batch, reset_index, data_size]

end BatchGeneratorVisitBased

/-! Embedding of TimeAttention / TimeSelfAttention (custom_layers.py,
lines 181-278).  Tensors are modeled per batch element as functions from
position indices: concept ids and time stamps are integer-valued, float
tensors are rational-valued.  The learned embedding table of the layer and
the trailing keras Softmax layer (a floating-point operation applied only
when return_logits is false) are abstract function-valued fields, so every
theorem holds for all learned weights. -/

/-- State of a TimeAttention layer after __init__ (lines 183-206):
half_window_size and time_window_size are the normalized values computed by
the constructor, embedding is the weight table of the Embedding layer (one
row of length time_window_size per concept id), softmax is the trailing
Softmax layer. -/
structure TimeAttention where
  vocab_size : ℕ
  target_seq_len : ℕ
  context_seq_len : ℕ
  half_window_size : ℕ
  time_window_size : ℕ
  return_logits : Bool
  embedding : ℤ → ℕ → ℚ
  softmax : (ℕ → ℕ → ℚ) → ℕ → ℕ → ℚ

namespace TimeAttention

/-- The constructor (lines 183-206): half_window_size =
int(time_window_size / 2) — floor division for the nonnegative sizes the
layer accepts — and the stored time_window_size is half_window_size * 2 + 1
(line 199 pads one bucket for time delta zero). -/
def make (vocab_size target_seq_len context_seq_len time_window_size : ℕ)
    (return_logits : Bool) (embedding : ℤ → ℕ → ℚ)
    (softmax : (ℕ → ℕ → ℚ) → ℕ → ℕ → ℚ) : TimeAttention :=
  { vocab_size := vocab_size
    target_seq_len := target_seq_len
    context_seq_len := context_seq_len
    half_window_size := time_window_size / 2
    time_window_size := time_window_size / 2 * 2 + 1
    return_logits := return_logits
    embedding := embedding
    softmax := softmax }

/-- get_config (lines 208-215) reports the stored fields, in particular
the stored (normalized) time_window_size, not the constructor argument. -/
def get_config (l : TimeAttention) : ℕ × ℕ × ℕ × ℕ × Bool :=
  (l.vocab_size, l.target_seq_len, l.context_seq_len, l.time_window_size,
    l.return_logits)

/-- Line 230: embedding lookup of the target concept ids, one learned
vector of length time_window_size per target position; entry (t, w) is
bucket w of the row for the concept at target position t. -/
def concept_time_embeddings (l : TimeAttention) (target_concepts : ℕ → ℤ) :
    ℕ → ℕ → ℚ :=
  fun t w => l.embedding (target_concepts t) w

/-- Lines 233-234: tf.tile(tf.expand_dims(context_time_stamps, -1),
[1, 1, target_seq_len]) copies the context time stamps along a new target
axis; entry (c, t) is the time stamp of context position c. -/
def multiplied_context_time_stamps (l : TimeAttention)
    (context_time_stamps : ℕ → ℤ) : ℕ → ℕ → ℤ :=
  fun c _t => context_time_stamps c

/-- Lines 237-238: subtract the broadcast target time stamps and transpose
with perm [0, 2, 1]; entry (t, c) is context_time(c) − target_time(t). -/
def time_delta (l : TimeAttention)
    (target_time_stamps context_time_stamps : ℕ → ℤ) : ℕ → ℕ → ℤ :=
  fun t c => multiplied_context_time_stamps l context_time_stamps c t -
    target_time_stamps t

/-- Lines 242-243: tf.clip_by_value of the time delta into
[−half_window_size, +half_window_size]. -/
def time_delta_value_clipped (l : TimeAttention)
    (target_time_stamps context_time_stamps : ℕ → ℤ) : ℕ → ℕ → ℤ :=
  fun t c => max (-(l.half_window_size : ℤ))
    (min (l.half_window_size : ℤ)
      (time_delta l target_time_stamps context_time_stamps t c))

/-- Line 245: tf.one_hot(clipped_delta + half_window_size,
time_window_size); entry (t, c, w) is 1 exactly when bucket w of the
window (w < time_window_size) equals the shifted clipped delta. -/
def time_delta_one_hot (l : TimeAttention)
    (target_time_stamps context_time_stamps : ℕ → ℤ) : ℕ → ℕ → ℕ → ℚ :=
  fun t c w =>
    if (w : ℤ) = time_delta_value_clipped l target_time_stamps
        context_time_stamps t c + l.half_window_size ∧
        w < l.time_window_size then 1 else 0

/-- Line 249: tf.reduce_sum of the one-hot tensor over the context axis —
the number of context positions falling into each time bucket of each
target position. -/
def bucket_counts (l : TimeAttention)
    (target_time_stamps context_time_stamps : ℕ → ℤ) : ℕ → ℕ → ℚ :=
  fun t w => ∑ c ∈ Finset.range l.context_seq_len,
    time_delta_one_hot l target_time_stamps context_time_stamps t c w

/-- tf.math.divide_no_nan: ordinary division, except that a zero
denominator yields zero instead of NaN or Inf. -/
def divide_no_nan (a b : ℚ) : ℚ :=
  if b = 0 then 0 else a / b

/-- Lines 248-249: the learned per-bucket vector of each target position,
divided bucket-wise by the bucket counts with divide_no_nan. -/
def normalized_concept_time_attentions (l : TimeAttention)
    (target_concepts : ℕ → ℤ)
    (target_time_stamps context_time_stamps : ℕ → ℤ) : ℕ → ℕ → ℚ :=
  fun t w => divide_no_nan (concept_time_embeddings l target_concepts t w)
    (bucket_counts l target_time_stamps context_time_stamps t w)

/-- Lines 252-256: tf.matmul of the one-hot tensor with the expanded
normalized attention vector, then squeeze — a weighted sum over buckets
that projects the normalized per-bucket weights back onto the context
positions. -/
def next_input (l : TimeAttention) (target_concepts : ℕ → ℤ)
    (target_time_stamps context_time_stamps : ℕ → ℤ) : ℕ → ℕ → ℚ :=
  fun t c => ∑ w ∈ Finset.range l.time_window_size,
    time_delta_one_hot l target_time_stamps context_time_stamps t c w *
      normalized_concept_time_attentions l target_concepts
        target_time_stamps context_time_stamps t w

/-- Lines 259-260: add the validity mask, broadcast over the target axis,
scaled by −1e9. -/
def masked_next_input (l : TimeAttention) (target_concepts : ℕ → ℤ)
    (target_time_stamps context_time_stamps : ℕ → ℤ) (time_mask : ℕ → ℤ) :
    ℕ → ℕ → ℚ :=
  fun t c => next_input l target_concepts target_time_stamps
    context_time_stamps t c + (time_mask c : ℚ) * (-(10 ^ 9 : ℚ))

/-- TimeAttention.call (lines 217-262): inputs[0] = target_concepts,
inputs[1] = target_time_stamps, inputs[2] = context_time_stamps,
inputs[3] = time_mask (optional); returns the raw logits when
return_logits is true, the softmax of the logits otherwise. -/
def call (l : TimeAttention) (target_concepts : ℕ → ℤ)
    (target_time_stamps context_time_stamps : ℕ → ℤ)
    (time_mask : Option (ℕ → ℤ)) : ℕ → ℕ → ℚ :=
  match time_mask with
  | some m =>
      if l.return_logits then
        masked_next_input l target_concepts target_time_stamps
          context_time_stamps m
      else
        l.softmax (masked_next_input l target_concepts target_time_stamps
          context_time_stamps m)
  | none =>
      if l.return_logits then
        next_input l target_concepts target_time_stamps context_time_stamps
      else
        l.softmax (next_input l target_concepts target_time_stamps
          context_time_stamps)

end TimeAttention

namespace TimeSelfAttention

/-- TimeSelfAttention.call (lines 265-278): inputs[0] = concept_ids,
inputs[1] = time_stamps, inputs[2] = mask; feeds the single time-stamp
stream as both the target and the context stream of the parent class. -/
def call (l : TimeAttention) (concept_ids : ℕ → ℤ)
    (time_stamps : ℕ → ℤ) (mask : Option (ℕ → ℤ)) : ℕ → ℕ → ℚ :=
  TimeAttention.call l concept_ids time_stamps time_stamps mask

end TimeSelfAttention

namespace TimeAttention

/-- C6: normalizing the learned per-target bucket vector by the bucket
counts uses divide_no_nan, so every bucket whose count of context
positions is zero yields exactly zero — not an error and not an undefined
value — and the layer output stays well defined on every input. -/
theorem normalized_zero_on_empty_bucket (l : TimeAttention)
    (target_concepts : ℕ → ℤ) (target_time_stamps context_time_stamps :
      ℕ → ℤ) (t w : ℕ)
    (h : bucket_counts l target_time_stamps context_time_stamps t w = 0) :
    normalized_concept_time_attentions l target_concepts
      target_time_stamps context_time_stamps t w = 0 := by
  simp [normalized_concept_time_attentions, divide_no_nan, h]

/-- Closed instance of the empty-bucket contract: with a single context
position whose time delta falls into the central bucket, bucket 0 has
count zero and its normalized weight is zero even though the learned
weight there is 1. -/
theorem normalized_zero_on_empty_bucket_witness :
    bucket_counts (make 1 1 1 3 true (fun _ _ => 1) (fun f => f))
      (fun _ => 0) (fun _ => 0) 0 0 = 0 ∧
    normalized_concept_time_attentions
      (make 1 1 1 3 true (fun _ _ => 1) (fun f => f))
      (fun _ => 0) (fun _ => 0) (fun _ => 0) 0 0 = 0 := by
  have hc : bucket_counts (make 1 1 1 3 true (fun _ _ => 1) (fun f => f))
      (fun _ => 0) (fun _ => 0) 0 0 = 0 := by
    norm_num [bucket_counts, time_delta_one_hot, time_delta_value_clipped,
      time_delta, multiplied_context_time_stamps, make,
      Finset.sum_range_one]
  exact ⟨hc, normalized_zero_on_empty_bucket _ _ _ _ 0 0 hc⟩

/-- C7: for every (target, context) position pair the layer computes the
time delta as context_time − target_time, clips it to the closed interval
[−half_window_size, +half_window_size], and one-hot encodes the delta
shifted by half_window_size into the 2·half_window_size + 1 buckets:
exactly one bucket fires, and delta 0 fires bucket half_window_size. -/
theorem time_delta_bucketing (l : TimeAttention)
    (hw : l.time_window_size = 2 * l.half_window_size + 1)
    (target_time_stamps context_time_stamps : ℕ → ℤ) (t c : ℕ) :
    time_delta l target_time_stamps context_time_stamps t c =
      context_time_stamps c - target_time_stamps t ∧
    time_delta_value_clipped l target_time_stamps context_time_stamps t c =
      max (-(l.half_window_size : ℤ)) (min (l.half_window_size : ℤ)
        (context_time_stamps c - target_time_stamps t)) ∧
    -(l.half_window_size : ℤ) ≤
      time_delta_value_clipped l target_time_stamps context_time_stamps
        t c ∧
    time_delta_value_clipped l target_time_stamps context_time_stamps t c ≤
      l.half_window_size ∧
    (∀ k : ℕ, time_delta_one_hot l target_time_stamps context_time_stamps
        t c k =
      if (k : ℤ) = time_delta_value_clipped l target_time_stamps
          context_time_stamps t c + l.half_window_size then 1 else 0) ∧
    (∑ k ∈ Finset.range l.time_window_size,
      time_delta_one_hot l target_time_stamps context_time_stamps t c k)
      = 1 ∧
    (context_time_stamps c - target_time_stamps t = 0 →
      time_delta_one_hot l target_time_stamps context_time_stamps t c
        l.half_window_size = 1) := by
  have hlo : -(l.half_window_size : ℤ) ≤
      time_delta_value_clipped l target_time_stamps context_time_stamps
        t c := le_max_left _ _
  have hhi : time_delta_value_clipped l target_time_stamps
      context_time_stamps t c ≤ l.half_window_size := by
    refine max_le ?_ (min_le_left _ _)
    omega
  have hone : ∀ k : ℕ, time_delta_one_hot l target_time_stamps
      context_time_stamps t c k =
      if (k : ℤ) = time_delta_value_clipped l target_time_stamps
          context_time_stamps t c + l.half_window_size then 1 else 0 := by
    intro k
    by_cases hk : (k : ℤ) = time_delta_value_clipped l target_time_stamps
        context_time_stamps t c + l.half_window_size
    · have hklt : k < l.time_window_size := by omega
      simp [time_delta_one_hot, hk, hklt]
    · simp [time_delta_one_hot, hk]
  refine ⟨rfl, rfl, hlo, hhi, hone, ?_, ?_⟩
  · have hnn : (0 : ℤ) ≤ time_delta_value_clipped l target_time_stamps
        context_time_stamps t c + l.half_window_size := by omega
    have hb : ((time_delta_value_clipped l target_time_stamps
        context_time_stamps t c + l.half_window_size).toNat : ℤ) =
        time_delta_value_clipped l target_time_stamps context_time_stamps
          t c + l.half_window_size := Int.toNat_of_nonneg hnn
    have hiff : ∀ k : ℕ, ((k : ℤ) = time_delta_value_clipped l
        target_time_stamps context_time_stamps t c + l.half_window_size) ↔
        (k = (time_delta_value_clipped l target_time_stamps
          context_time_stamps t c + l.half_window_size).toNat) := by
      intro k
      omega
    calc ∑ k ∈ Finset.range l.time_window_size,
          time_delta_one_hot l target_time_stamps context_time_stamps t c k
        = ∑ k ∈ Finset.range l.time_window_size,
          if k = (time_delta_value_clipped l target_time_stamps
            context_time_stamps t c + l.half_window_size).toNat
          then (1 : ℚ) else 0 := by
          refine Finset.sum_congr rfl (fun k _ => ?_)
          rw [hone k]
          simp only [hiff k]
      _ = 1 := by
          rw [Finset.sum_ite_eq' (Finset.range l.time_window_size) _
            (fun _ => (1 : ℚ))]
          rw [if_pos]
          rw [Finset.mem_range]
          omega
  · intro hd
    have hclip : time_delta_value_clipped l target_time_stamps
        context_time_stamps t c = 0 := by
      simp only [time_delta_value_clipped, time_delta,
        multiplied_context_time_stamps]
      omega
    rw [hone l.half_window_size, hclip, if_pos (by omega)]

/-- Closed instance of the time-delta bucketing on a window of size 5
(half window 2): equal target and context time stamps give delta 0 and
fire bucket 2. -/
theorem time_delta_bucketing_witness :
    time_delta (make 1 2 2 5 true (fun _ _ => 0) (fun f => f))
      (fun _ => 3) (fun _ => 3) 0 0 = 0 ∧
    time_delta_one_hot (make 1 2 2 5 true (fun _ _ => 0) (fun f => f))
      (fun _ => 3) (fun _ => 3) 0 0 2 = 1 := by
  have h := time_delta_bucketing
    (make 1 2 2 5 true (fun _ _ => 0) (fun f => f)) (by decide)
    (fun _ => 3) (fun _ => 3) 0 0
  exact ⟨h.1.trans (by decide), h.2.2.2.2.2.2 (by decide)⟩

/-- C10: the constructor normalizes every window-size argument w to an odd
bucket count: it stores half_window_size = w / 2 (floor) and
time_window_size = 2·(w / 2) + 1, so an odd w is kept and an even w is
widened to w + 1, and get_config reports the normalized odd value, not the
argument. -/
theorem time_window_size_normalized (vocab_size target_seq_len
    context_seq_len w : ℕ) (return_logits : Bool)
    (embedding : ℤ → ℕ → ℚ) (softmax : (ℕ → ℕ → ℚ) → ℕ → ℕ → ℚ) :
    (make vocab_size target_seq_len context_seq_len w return_logits
      embedding softmax).half_window_size = w / 2 ∧
    (make vocab_size target_seq_len context_seq_len w return_logits
      embedding softmax).time_window_size = 2 * (w / 2) + 1 ∧
    (w % 2 = 1 → (make vocab_size target_seq_len context_seq_len w
      return_logits embedding softmax).time_window_size = w) ∧
    (w % 2 = 0 → (make vocab_size target_seq_len context_seq_len w
      return_logits embedding softmax).time_window_size = w + 1) ∧
    (get_config (make vocab_size target_seq_len context_seq_len w
      return_logits embedding softmax)).2.2.2.1 = 2 * (w / 2) + 1 := by
  refine ⟨rfl, ?_, ?_, ?_, ?_⟩
  · show w / 2 * 2 + 1 = 2 * (w / 2) + 1
    omega
  · intro h
    show w / 2 * 2 + 1 = w
    omega
  · intro h
    show w / 2 * 2 + 1 = w + 1
    omega
  · show w / 2 * 2 + 1 = 2 * (w / 2) + 1
    omega

/-- Closed instance of the window normalization: the even argument 4 is
widened to 5 buckets. -/
theorem time_window_size_normalized_witness :
    (make 10 5 5 4 true (fun _ _ => 0) (fun f => f)).time_window_size
      = 5 := by
  have h := time_window_size_normalized 10 5 5 4 true (fun _ _ => 0)
    (fun f => f)
  exact h.2.2.2.1 (by decide)

end TimeAttention

/-- C8: TimeSelfAttention.call on [concept_ids, time_stamps, mask] returns
exactly the result of TimeAttention.call on [concept_ids, time_stamps,
time_stamps, mask]: the self-attention specialization feeds the single
time-stamp stream as both the target and the context stream of the
general layer. -/
theorem time_self_attention_refines (l : TimeAttention)
    (concept_ids : ℕ → ℤ) (time_stamps : ℕ → ℤ)
    (mask : Option (ℕ → ℤ)) :
    TimeSelfAttention.call l concept_ids time_stamps mask =
      TimeAttention.call l concept_ids time_stamps time_stamps mask := rfl

end BertConceptEmbeddings
